import Mathlib

/-!
Shallow embedding of `src/packages/core/src/utils/searchCache.ts`.

The TypeScript `SearchCache<T>` class keeps a JavaScript `Map<string,
CacheEntry<T>>`.  A JavaScript `Map` iterates in insertion order and
`map.set` on an existing key updates the value *in place*, keeping the
key's position; `map.delete` removes the entry; `map.keys().next().value`
is the first (oldest) key, or `undefined` on an empty map.  We model the
map as an association list in insertion order (oldest first) and the
`Date.now()` calls as an explicit `now : Int` argument.  The truthiness
test `if (oldestKey)` in `set` is false for both `undefined` (empty map)
and the empty string.
-/

/-- `CacheEntry<T>` from the source: `value`, `timestamp` (creation time)
and `expiresAt`. -/
structure CacheEntry (T : Type) where
  value : T
  timestamp : Int
  expiresAt : Int
deriving DecidableEq, Repr

/-- Insertion-ordered map lookup: `Map.prototype.get`. -/
def mapGet {α : Type} (m : List (String × α)) (k : String) : Option α :=
  match m with
  | [] => none
  | (k0, v0) :: rest => if k0 = k then some v0 else mapGet rest k

/-- Insertion-ordered map update: `Map.prototype.set`.  If the key is
present its value is updated in place (insertion order unchanged),
otherwise the pair is appended at the end. -/
def mapSet {α : Type} (m : List (String × α)) (k : String) (v : α) :
    List (String × α) :=
  match m with
  | [] => [(k, v)]
  | (k0, v0) :: rest =>
    if k0 = k then (k, v) :: rest else (k0, v0) :: mapSet rest k v

/-- Insertion-ordered map removal: `Map.prototype.delete` (keys are unique
in a JavaScript map, so removing the first occurrence is exact). -/
def mapDelete {α : Type} (m : List (String × α)) (k : String) :
    List (String × α) :=
  match m with
  | [] => []
  | (k0, v0) :: rest =>
    if k0 = k then rest else (k0, v0) :: mapDelete rest k

/-- The state of a `SearchCache<T>` instance: the backing map plus the two
configuration fields. -/
structure SearchCache (T : Type) where
  cache : List (String × CacheEntry T)
  maxSize : Int
  defaultTtlMs : Int
deriving DecidableEq, Repr

/-- Constructor options `{ maxSize?: number; ttlMs?: number }`. -/
structure CacheOptions where
  maxSize : Option Int
  ttlMs : Option Int
deriving DecidableEq, Repr

/-- `new SearchCache(options?)`: `maxSize` defaults to 100 and `ttlMs`
to 5 minutes (300000 ms); no validation is performed. -/
def mkSearchCache (T : Type) (options : Option CacheOptions) : SearchCache T :=
  { cache := []
    maxSize := ((options.bind (·.maxSize)).getD 100)
    defaultTtlMs := ((options.bind (·.ttlMs)).getD (5 * 60 * 1000)) }

/-- `get(key)`: returns the value (or `undefined` = `none`) together with
the updated cache state.  A hit that is past `expiresAt` is deleted and
reported as a miss; a live hit is deleted and re-inserted at the end of
the insertion order (the LRU promotion in the source). -/
def SearchCache.get {T : Type} (c : SearchCache T) (now : Int) (key : String) :
    Option T × SearchCache T :=
  match mapGet c.cache key with
  | none => (none, c)
  | some entry =>
    if now > entry.expiresAt then
      (none, { c with cache := mapDelete c.cache key })
    else
      (some entry.value,
       { c with cache := mapSet (mapDelete c.cache key) key entry })

/-- `set(key, value, ttlMs?)`: when `size >= maxSize` the first (oldest)
key is deleted, but only when it is truthy (skipped for the empty string
and for an empty map); then the new entry is written with
`expiresAt = now + (ttlMs ?? defaultTtlMs)`. -/
def SearchCache.set {T : Type} (c : SearchCache T) (now : Int) (key : String)
    (value : T) (ttlMs : Option Int) : SearchCache T :=
  let afterEvict :=
    if (c.cache.length : Int) ≥ c.maxSize then
      match c.cache.head? with
      | some (oldestKey, _) =>
        if oldestKey = "" then c.cache else mapDelete c.cache oldestKey
      | none => c.cache
    else c.cache
  { c with
    cache :=
      mapSet afterEvict key
        { value := value
          timestamp := now
          expiresAt := now + ttlMs.getD c.defaultTtlMs } }

/-- `has(key)`: `this.get(key) !== undefined`, so it shares `get`'s state
effects (LRU promotion and lazy expiry). -/
def SearchCache.has {T : Type} (c : SearchCache T) (now : Int) (key : String) :
    Bool × SearchCache T :=
  let r := c.get now key
  (r.1.isSome, r.2)

/-- `delete(key)`: unconditional removal, returning whether a key was
present. -/
def SearchCache.del {T : Type} (c : SearchCache T) (key : String) :
    Bool × SearchCache T :=
  ((mapGet c.cache key).isSome, { c with cache := mapDelete c.cache key })

/-- `clear()`. -/
def SearchCache.clear {T : Type} (c : SearchCache T) : SearchCache T :=
  { c with cache := [] }

/-- `getStats()`: physical entry count and configured capacity. -/
def SearchCache.getStats {T : Type} (c : SearchCache T) : Int × Int :=
  ((c.cache.length : Int), c.maxSize)

/-- One cache operation of the public mutating API, with the `Date.now()`
reading of the call attached. -/
inductive CacheOp (T : Type) where
  | set (now : Int) (key : String) (value : T) (ttlMs : Option Int)
  | get (now : Int) (key : String)
  | has (now : Int) (key : String)
  | del (key : String)
  | clear
deriving DecidableEq

/-- State effect of a single operation. -/
def applyOp {T : Type} (c : SearchCache T) : CacheOp T → SearchCache T
  | .set now key value ttlMs => c.set now key value ttlMs
  | .get now key => (c.get now key).2
  | .has now key => (c.has now key).2
  | .del key => (c.del key).2
  | .clear => c.clear

/-- Run a sequence of operations. -/
def runOps {T : Type} (c : SearchCache T) (ops : List (CacheOp T)) :
    SearchCache T :=
  ops.foldl applyOp c

/-- JavaScript whitespace as far as `String.prototype.trim` is concerned,
restricted to the ASCII whitespace code points (space, tab, LF, VT, FF,
CR). -/
def isJsWs (c : Char) : Bool :=
  c.toNat = 32 || c.toNat = 9 || c.toNat = 10 || c.toNat = 11 ||
    c.toNat = 12 || c.toNat = 13

/-- `String.prototype.toLowerCase` on one character, for the ASCII range:
code points 65–90 are shifted by 32, everything else is unchanged. -/
def jsToLowerChar (c : Char) : Char :=
  if 65 ≤ c.toNat ∧ c.toNat ≤ 90 then Char.ofNat (c.toNat + 32) else c

/-- `String.prototype.toLowerCase` (ASCII model). -/
def jsToLower (s : String) : String :=
  String.mk (s.data.map jsToLowerChar)

/-- `String.prototype.trim`: strip whitespace from both ends. -/
def jsTrim (s : String) : String :=
  String.mk (((s.data.dropWhile isJsWs).reverse.dropWhile isJsWs).reverse)

/-- `JSON.stringify` of a flat record with integer values, fields in
insertion order (the only shape the claims exercise). -/
def jsonStringify (options : List (String × Int)) : String :=
  "\x7b" ++
    String.intercalate ","
      (options.map (fun p => "\x22" ++ p.1 ++ "\x22:" ++ toString p.2)) ++
    "\x7d"

/-- `SearchCache.generateKey(query, options?)`:
`query.toLowerCase().trim()` then `:` then the serialized options (empty
string when absent). -/
def generateKey (query : String) (options : Option (List (String × Int))) :
    String :=
  let normalizedQuery := jsTrim (jsToLower query)
  let optionsStr :=
    match options with
    | some o => jsonStringify o
    | none => ""
  normalizedQuery ++ ":" ++ optionsStr

/-- Two characters are the same letter up to ASCII case: equal, or one is
the uppercase (code 65–90) and the other the corresponding lowercase
(code + 32). -/
def sameLetterModCase (c1 c2 : Char) : Prop :=
  c1 = c2 ∨
    (65 ≤ c1.toNat ∧ c1.toNat ≤ 90 ∧ c2.toNat = c1.toNat + 32) ∨
    (65 ≤ c2.toNat ∧ c2.toNat ≤ 90 ∧ c1.toNat = c2.toNat + 32)

instance (c1 c2 : Char) : Decidable (sameLetterModCase c1 c2) := by
  unfold sameLetterModCase
  infer_instance

/-! ### Association-list lemmas -/

theorem mapGet_mapSet_self {α : Type} (m : List (String × α)) (k : String)
    (v : α) : mapGet (mapSet m k v) k = some v := by
  induction m with
  | nil => simp [mapSet, mapGet]
  | cons p rest ih =>
    by_cases h : p.1 = k
    · simp [mapSet, mapGet, h]
    · simp [mapSet, mapGet, h, ih]

theorem mem_mapSet {α : Type} {m : List (String × α)} {k : String} {v : α}
    {p : String × α} (hp : p ∈ mapSet m k v) : p = (k, v) ∨ p ∈ m := by
  induction m with
  | nil => simpa [mapSet] using hp
  | cons q rest ih =>
    by_cases h : q.1 = k
    · rcases (by simpa [mapSet, h] using hp) with h1 | h1
      · exact Or.inl h1
      · exact Or.inr (List.mem_cons_of_mem _ h1)
    · rcases (by simpa [mapSet, h] using hp) with h1 | h1
      · exact Or.inr (h1 ▸ List.mem_cons_self _ _)
      · rcases ih h1 with h2 | h2
        · exact Or.inl h2
        · exact Or.inr (List.mem_cons_of_mem _ h2)

theorem mem_mapDelete {α : Type} {m : List (String × α)} {k : String}
    {p : String × α} (hp : p ∈ mapDelete m k) : p ∈ m := by
  induction m with
  | nil => simp [mapDelete] at hp
  | cons q rest ih =>
    by_cases h : q.1 = k
    · exact List.mem_cons_of_mem _ (by simpa [mapDelete, h] using hp)
    · rcases (by simpa [mapDelete, h] using hp) with h1 | h1
      · exact h1 ▸ List.mem_cons_self _ _
      · exact List.mem_cons_of_mem _ (ih h1)

theorem length_mapDelete_le {α : Type} (m : List (String × α)) (k : String) :
    (mapDelete m k).length ≤ m.length := by
  induction m with
  | nil => simp [mapDelete]
  | cons q rest ih =>
    by_cases h : q.1 = k
    · simp [mapDelete, h]
    · simp [mapDelete, h]
      omega

theorem length_mapSet_le {α : Type} (m : List (String × α)) (k : String)
    (v : α) : (mapSet m k v).length ≤ m.length + 1 := by
  induction m with
  | nil => simp [mapSet]
  | cons q rest ih =>
    by_cases h : q.1 = k
    · simp [mapSet, h]
    · simp [mapSet, h]
      omega

theorem length_mapDelete_of_mapGet {α : Type} {m : List (String × α)}
    {k : String} {v : α} (h : mapGet m k = some v) :
    (mapDelete m k).length + 1 = m.length := by
  induction m with
  | nil => simp [mapGet] at h
  | cons q rest ih =>
    by_cases hq : q.1 = k
    · simp [mapDelete, hq]
    · simp [mapGet, hq] at h
      simp [mapDelete, hq, ih h]

theorem mem_of_mapGet_eq_some {α : Type} {m : List (String × α)} {k : String}
    {v : α} (h : mapGet m k = some v) : (k, v) ∈ m := by
  induction m with
  | nil => simp [mapGet] at h
  | cons q rest ih =>
    by_cases hq : q.1 = k
    · simp [mapGet, hq] at h
      cases q with
      | mk a b =>
        simp at hq h
        subst hq
        subst h
        exact List.mem_cons_self _ _
    · simp [mapGet, hq] at h
      exact List.mem_cons_of_mem _ (ih h)

theorem keys_mapSet_of_present {α : Type} {m : List (String × α)} {k : String}
    {v0 : α} (h : mapGet m k = some v0) (v : α) :
    (mapSet m k v).map Prod.fst = m.map Prod.fst := by
  induction m with
  | nil => simp [mapGet] at h
  | cons q rest ih =>
    by_cases hq : q.1 = k
    · simp [mapSet, hq]
    · simp [mapGet, hq] at h
      simp [mapSet, hq, ih h]

theorem mapSet_of_absent {α : Type} {m : List (String × α)} {k : String}
    (h : mapGet m k = none) (v : α) : mapSet m k v = m ++ [(k, v)] := by
  induction m with
  | nil => simp [mapSet]
  | cons q rest ih =>
    by_cases hq : q.1 = k
    · simp [mapGet, hq] at h
    · simp [mapGet, hq] at h
      simp [mapSet, hq, ih h]

/-! ### Behaviour of `get` on the three kinds of lookup -/

theorem get_miss {T : Type} {c : SearchCache T} {key : String} (now : Int)
    (h : mapGet c.cache key = none) : c.get now key = (none, c) := by
  simp [SearchCache.get, h]

theorem get_expired {T : Type} {c : SearchCache T} {key : String}
    {e : CacheEntry T} {now : Int} (h : mapGet c.cache key = some e)
    (hexp : e.expiresAt < now) :
    c.get now key = (none, { c with cache := mapDelete c.cache key }) := by
  simp [SearchCache.get, h, hexp]

theorem get_hit {T : Type} {c : SearchCache T} {key : String}
    {e : CacheEntry T} {now : Int} (h : mapGet c.cache key = some e)
    (hlive : now ≤ e.expiresAt) :
    c.get now key =
      (some e.value,
       { c with cache := mapSet (mapDelete c.cache key) key e }) := by
  simp [SearchCache.get, h]
  omega

/-! ### Preservation of the configuration fields and `set` branch shapes -/

theorem maxSize_set {T : Type} (c : SearchCache T) (now : Int) (key : String)
    (value : T) (ttlMs : Option Int) :
    (c.set now key value ttlMs).maxSize = c.maxSize := rfl

theorem defaultTtlMs_set {T : Type} (c : SearchCache T) (now : Int)
    (key : String) (value : T) (ttlMs : Option Int) :
    (c.set now key value ttlMs).defaultTtlMs = c.defaultTtlMs := rfl

theorem get_snd_fields {T : Type} (c : SearchCache T) (now : Int)
    (key : String) :
    ((c.get now key).2).maxSize = c.maxSize ∧
      ((c.get now key).2).defaultTtlMs = c.defaultTtlMs := by
  rcases hm : mapGet c.cache key with _ | e
  · rw [get_miss now hm]
    exact ⟨rfl, rfl⟩
  · by_cases hexp : e.expiresAt < now
    · rw [get_expired hm hexp]
      exact ⟨rfl, rfl⟩
    · rw [get_hit hm (by omega)]
      exact ⟨rfl, rfl⟩

theorem maxSize_applyOp {T : Type} (c : SearchCache T) (op : CacheOp T) :
    (applyOp c op).maxSize = c.maxSize := by
  cases op with
  | set now key value ttlMs => rfl
  | get now key => exact (get_snd_fields c now key).1
  | has now key => exact (get_snd_fields c now key).1
  | del key => rfl
  | clear => rfl

theorem defaultTtlMs_applyOp {T : Type} (c : SearchCache T) (op : CacheOp T) :
    (applyOp c op).defaultTtlMs = c.defaultTtlMs := by
  cases op with
  | set now key value ttlMs => rfl
  | get now key => exact (get_snd_fields c now key).2
  | has now key => exact (get_snd_fields c now key).2
  | del key => rfl
  | clear => rfl

/-- When below capacity, `set` is a plain `mapSet`. -/
theorem set_cache_below {T : Type} {c : SearchCache T}
    (hlt : (c.cache.length : Int) < c.maxSize) (now : Int) (key : String)
    (value : T) (ttlMs : Option Int) :
    (c.set now key value ttlMs).cache =
      mapSet c.cache key ⟨value, now, now + ttlMs.getD c.defaultTtlMs⟩ := by
  simp only [SearchCache.set]
  rw [if_neg (by omega)]

/-- At or above capacity with a nonempty oldest key, `set` first deletes
that oldest key. -/
theorem set_cache_full {T : Type} {c : SearchCache T} {k0 : String}
    {e0 : CacheEntry T} {rest : List (String × CacheEntry T)}
    (hq : c.cache = (k0, e0) :: rest) (hk0 : k0 ≠ "")
    (hfull : (c.cache.length : Int) ≥ c.maxSize) (now : Int) (key : String)
    (value : T) (ttlMs : Option Int) :
    (c.set now key value ttlMs).cache =
      mapSet rest key ⟨value, now, now + ttlMs.getD c.defaultTtlMs⟩ := by
  simp only [SearchCache.set]
  rw [if_pos hfull, hq]
  simp [mapDelete, hk0]

/-- At or above capacity with the empty string as oldest key, the eviction
is skipped and `set` is a plain `mapSet`. -/
theorem set_cache_full_empty_key {T : Type} {c : SearchCache T}
    {e0 : CacheEntry T} {rest : List (String × CacheEntry T)}
    (hq : c.cache = ("", e0) :: rest)
    (hfull : (c.cache.length : Int) ≥ c.maxSize) (now : Int) (key : String)
    (value : T) (ttlMs : Option Int) :
    (c.set now key value ttlMs).cache =
      mapSet c.cache key ⟨value, now, now + ttlMs.getD c.defaultTtlMs⟩ := by
  simp only [SearchCache.set]
  rw [if_pos hfull, hq]
  simp

/-! ### The size / nonempty-keys invariant used for the capacity bound -/

/-- Invariant: the physical size is within the configured capacity and no
stored key is the empty string. -/
def SizeInv {T : Type} (c : SearchCache T) : Prop :=
  ((c.cache.length : Int) ≤ c.maxSize) ∧ ∀ p ∈ c.cache, p.1 ≠ ""

/-- An operation is benign for the capacity bound when it never inserts
the empty-string key. -/
def opKeyOk {T : Type} : CacheOp T → Bool
  | .set _ key _ _ => key != ""
  | _ => true

theorem sizeInv_set {T : Type} {c : SearchCache T} (now : Int) {key : String}
    (value : T) (ttlMs : Option Int) (hcap : 1 ≤ c.maxSize) (hinv : SizeInv c)
    (hkey : key ≠ "") : SizeInv (c.set now key value ttlMs) := by
  obtain ⟨hlen, hkeys⟩ := hinv
  by_cases hfull : (c.cache.length : Int) ≥ c.maxSize
  · have hne : c.cache ≠ [] := by
      intro hnil
      rw [hnil] at hfull
      simp at hfull
      omega
    obtain ⟨⟨k0, e0⟩, rest, hq⟩ := List.exists_cons_of_ne_nil hne
    have hk0 : k0 ≠ "" := hkeys (k0, e0) (hq ▸ List.mem_cons_self _ _)
    have hcache := set_cache_full hq hk0 hfull now key value ttlMs
    constructor
    · rw [hcache, maxSize_set]
      have h1 := length_mapSet_le rest key
        (⟨value, now, now + ttlMs.getD c.defaultTtlMs⟩ : CacheEntry T)
      have h2 : rest.length + 1 = c.cache.length := by
        rw [hq]
        simp
      omega
    · intro p hp
      rw [hcache] at hp
      rcases mem_mapSet hp with h1 | h1
      · rw [h1]
        exact hkey
      · exact hkeys p (hq ▸ List.mem_cons_of_mem _ h1)
  · have hlt : (c.cache.length : Int) < c.maxSize := by omega
    have hcache := set_cache_below hlt now key value ttlMs
    constructor
    · rw [hcache, maxSize_set]
      have h1 := length_mapSet_le c.cache key
        (⟨value, now, now + ttlMs.getD c.defaultTtlMs⟩ : CacheEntry T)
      push_cast at hfull ⊢
      omega
    · intro p hp
      rw [hcache] at hp
      rcases mem_mapSet hp with h1 | h1
      · rw [h1]
        exact hkey
      · exact hkeys p h1

theorem sizeInv_get {T : Type} {c : SearchCache T} (now : Int) (key : String)
    (hinv : SizeInv c) : SizeInv (c.get now key).2 := by
  obtain ⟨hlen, hkeys⟩ := hinv
  rcases hm : mapGet c.cache key with _ | e
  · rw [get_miss now hm]
    exact ⟨hlen, hkeys⟩
  · by_cases hexp : e.expiresAt < now
    · rw [get_expired hm hexp]
      refine ⟨?_, ?_⟩
      · have := length_mapDelete_le c.cache key
        push_cast
        omega
      · intro p hp
        exact hkeys p (mem_mapDelete hp)
    · rw [get_hit hm (by omega)]
      refine ⟨?_, ?_⟩
      · have h1 := length_mapSet_le (mapDelete c.cache key) key e
        have h2 := length_mapDelete_of_mapGet hm
        push_cast
        omega
      · intro p hp
        rcases mem_mapSet hp with h1 | h1
        · rw [h1]
          exact hkeys (key, e) (mem_of_mapGet_eq_some hm)
        · exact hkeys p (mem_mapDelete h1)

theorem sizeInv_applyOp {T : Type} {c : SearchCache T} {op : CacheOp T}
    (hcap : 1 ≤ c.maxSize) (hinv : SizeInv c) (hop : opKeyOk op = true) :
    SizeInv (applyOp c op) := by
  cases op with
  | set now key value ttlMs =>
    simp [opKeyOk] at hop
    exact sizeInv_set now value ttlMs hcap hinv hop
  | get now key => exact sizeInv_get now key hinv
  | has now key =>
    simpa [applyOp, SearchCache.has] using sizeInv_get now key hinv
  | del key =>
    obtain ⟨hlen, hkeys⟩ := hinv
    refine ⟨?_, ?_⟩
    · have := length_mapDelete_le c.cache key
      simp [applyOp, SearchCache.del]
      omega
    · intro p hp
      exact hkeys p (mem_mapDelete (by simpa [applyOp, SearchCache.del] using hp))
  | clear =>
    refine ⟨?_, ?_⟩
    · simp [applyOp, SearchCache.clear]
      omega
    · intro p hp
      simp [applyOp, SearchCache.clear] at hp

theorem sizeInv_runOps {T : Type} {c : SearchCache T} {ops : List (CacheOp T)}
    (hcap : 1 ≤ c.maxSize) (hinv : SizeInv c)
    (hops : ∀ op ∈ ops, opKeyOk op = true) : SizeInv (runOps c ops) := by
  induction ops generalizing c with
  | nil => exact hinv
  | cons op rest ih =>
    have h1 : SizeInv (applyOp c op) :=
      sizeInv_applyOp hcap hinv (hops op (List.mem_cons_self _ _))
    have h2 : 1 ≤ (applyOp c op).maxSize := by
      rw [maxSize_applyOp]
      exact hcap
    exact ih h2 h1 (fun o ho => hops o (List.mem_cons_of_mem _ ho))

theorem maxSize_runOps {T : Type} (c : SearchCache T)
    (ops : List (CacheOp T)) : (runOps c ops).maxSize = c.maxSize := by
  induction ops generalizing c with
  | nil => rfl
  | cons op rest ih =>
    show (runOps (applyOp c op) rest).maxSize = c.maxSize
    rw [ih, maxSize_applyOp]

/-! ### Lemmas about the key-normalization helpers -/

theorem jsToLowerChar_eq_of_same {c1 c2 : Char}
    (h : sameLetterModCase c1 c2) : jsToLowerChar c1 = jsToLowerChar c2 := by
  rcases h with h | ⟨h1, h2, h3⟩ | ⟨h1, h2, h3⟩
  · rw [h]
  · have hup : jsToLowerChar c1 = Char.ofNat (c1.toNat + 32) := by
      simp [jsToLowerChar, h1, h2]
    have hlo : jsToLowerChar c2 = c2 := by
      simp only [jsToLowerChar]
      rw [if_neg (by omega)]
    rw [hup, hlo, ← h3, Char.ofNat_toNat]
  · have hup : jsToLowerChar c2 = Char.ofNat (c2.toNat + 32) := by
      simp [jsToLowerChar, h1, h2]
    have hlo : jsToLowerChar c1 = c1 := by
      simp only [jsToLowerChar]
      rw [if_neg (by omega)]
    rw [hup, hlo, ← h3, Char.ofNat_toNat]

theorem map_jsToLowerChar_eq {l1 l2 : List Char}
    (h : List.Forall₂ sameLetterModCase l1 l2) :
    l1.map jsToLowerChar = l2.map jsToLowerChar := by
  induction h with
  | nil => rfl
  | cons hab _ ih => simp [jsToLowerChar_eq_of_same hab, ih]

theorem isJsWs_jsToLowerChar (c : Char) :
    isJsWs (jsToLowerChar c) = isJsWs c := by
  by_cases h : 65 ≤ c.toNat ∧ c.toNat ≤ 90
  · obtain ⟨h1, h2⟩ := h
    have hc : jsToLowerChar c = Char.ofNat (c.toNat + 32) := by
      simp [jsToLowerChar, h1, h2]
    rw [hc]
    have hself : isJsWs c = false := by
      simp only [isJsWs]
      simp only [Bool.or_eq_false_iff, decide_eq_false_iff_not]
      omega
    rw [hself]
    set n := c.toNat with hn
    interval_cases n <;> decide
  · simp [jsToLowerChar, h]

theorem dropWhile_append_all {α : Type} {p : α → Bool} {l : List α}
    (h : ∀ c ∈ l, p c = true) (m : List α) :
    (l ++ m).dropWhile p = m.dropWhile p := by
  induction l with
  | nil => rfl
  | cons a rest ih =>
    have ha : p a = true := h a (List.mem_cons_self _ _)
    simp only [List.cons_append, List.dropWhile_cons, ha, if_pos]
    exact ih (fun c hc => h c (List.mem_cons_of_mem _ hc))

theorem dropWhile_all_eq_nil {α : Type} {p : α → Bool} {l : List α}
    (h : ∀ c ∈ l, p c = true) : l.dropWhile p = [] := by
  have := dropWhile_append_all h ([] : List α)
  simpa using this

theorem length_dropWhile_le {α : Type} (p : α → Bool) (l : List α) :
    (l.dropWhile p).length ≤ l.length := by
  induction l with
  | nil => simp
  | cons a rest ih =>
    by_cases hpa : p a = true
    · simp only [List.dropWhile_cons, hpa, if_pos]
      simp
      omega
    · simp only [List.dropWhile_cons, hpa, if_neg, Bool.not_eq_true]
      simp

theorem head_false_of_dropWhile_eq_self {α : Type} {p : α → Bool} {a : α}
    {rest : List α} (h : (a :: rest).dropWhile p = a :: rest) :
    p a = false := by
  by_cases hpa : p a = true
  · exfalso
    have hlen := congrArg List.length h
    simp only [List.dropWhile_cons, hpa, if_pos] at hlen
    have := length_dropWhile_le p rest
    simp at hlen
    omega
  · simpa using hpa

theorem dropWhile_self_append {α : Type} {p : α → Bool} {l : List α}
    (h : l.dropWhile p = l) (hne : l ≠ []) (m : List α) :
    (l ++ m).dropWhile p = l ++ m := by
  rcases l with _ | ⟨a, rest⟩
  · exact absurd rfl hne
  · have ha := head_false_of_dropWhile_eq_self h
    simp [List.dropWhile_cons, ha]

theorem dropWhile_map_self {α : Type} {p : α → Bool} {f : α → α}
    (hpf : ∀ c, p (f c) = p c) {l : List α} (h : l.dropWhile p = l) :
    (l.map f).dropWhile p = l.map f := by
  rcases l with _ | ⟨a, rest⟩
  · rfl
  · have ha := head_false_of_dropWhile_eq_self h
    have hfa : p (f a) = false := by rw [hpf]; exact ha
    simp [List.dropWhile_cons, hfa]

/-- `trim` of whitespace, a whitespace-free core, and whitespace again is
the core. -/
theorem jsTrim_sandwich (wl core wr : List Char)
    (hwl : ∀ c ∈ wl, isJsWs c = true) (hwr : ∀ c ∈ wr, isJsWs c = true)
    (hcoreL : core.dropWhile isJsWs = core)
    (hcoreR : core.reverse.dropWhile isJsWs = core.reverse) :
    jsTrim (String.mk (wl ++ core ++ wr)) = String.mk core := by
  simp only [jsTrim]
  rcases hcore : core with _ | ⟨a, rest⟩
  · have h1 : ((wl ++ [] ++ wr).dropWhile isJsWs) = [] := by
      rw [List.append_nil]
      rw [dropWhile_append_all hwl]
      exact dropWhile_all_eq_nil hwr
    rw [h1]
    simp
  · rw [← hcore]
    have hne : core ≠ [] := by
      rw [hcore]
      simp
    have h1 : ((wl ++ core ++ wr).dropWhile isJsWs) = core ++ wr := by
      rw [List.append_assoc, dropWhile_append_all hwl]
      exact dropWhile_self_append hcoreL hne wr
    rw [h1]
    have hne2 : core.reverse ≠ [] := by
      simpa using hne
    have h2 : ((core ++ wr).reverse.dropWhile isJsWs) = core.reverse := by
      rw [List.reverse_append]
      rw [dropWhile_append_all (fun c hc => hwr c (List.mem_reverse.mp hc))]
      exact hcoreR
    rw [h2]
    simp

/-! ### The entry-times invariant (`timestamp ≤ expiresAt`) -/

/-- Invariant: every stored entry expires no earlier than it was created. -/
def EntryTimesOk {T : Type} (c : SearchCache T) : Prop :=
  ∀ p ∈ c.cache, p.2.timestamp ≤ p.2.expiresAt

/-- An operation is benign for the entry-times invariant when any explicit
TTL it supplies is nonnegative. -/
def opTtlOk {T : Type} : CacheOp T → Bool
  | .set _ _ _ (some t) => decide (0 ≤ t)
  | _ => true

theorem mem_set_cache {T : Type} {c : SearchCache T} {now : Int}
    {key : String} {value : T} {ttlMs : Option Int} {p : String × CacheEntry T}
    (hp : p ∈ (c.set now key value ttlMs).cache) :
    p = (key, ⟨value, now, now + ttlMs.getD c.defaultTtlMs⟩) ∨
      p ∈ c.cache := by
  simp only [SearchCache.set] at hp
  rcases mem_mapSet hp with h1 | h1
  · exact Or.inl h1
  · right
    by_cases hfull : (c.cache.length : Int) ≥ c.maxSize
    · rw [if_pos hfull] at h1
      rcases hc : c.cache with _ | ⟨⟨k0, e0⟩, rest⟩
      · rw [hc] at h1
        simp at h1
      · rw [hc] at h1
        simp only [List.head?_cons] at h1
        by_cases hk : k0 = ""
        · rw [if_pos hk] at h1
          exact h1
        · rw [if_neg hk] at h1
          exact mem_mapDelete h1
    · rw [if_neg hfull] at h1
      exact h1

theorem entryTimesOk_set {T : Type} {c : SearchCache T} {now : Int}
    {key : String} {value : T} {ttlMs : Option Int}
    (hdef : 0 ≤ c.defaultTtlMs) (hinv : EntryTimesOk c)
    (httl : ∀ t, ttlMs = some t → 0 ≤ t) :
    EntryTimesOk (c.set now key value ttlMs) := by
  intro p hp
  rcases mem_set_cache hp with h1 | h1
  · rw [h1]
    rcases ttlMs with _ | t
    · simp [Option.getD]
      omega
    · have := httl t rfl
      simp [Option.getD]
      omega
  · exact hinv p h1

theorem entryTimesOk_get {T : Type} {c : SearchCache T} (now : Int)
    (key : String) (hinv : EntryTimesOk c) :
    EntryTimesOk (c.get now key).2 := by
  rcases hm : mapGet c.cache key with _ | e
  · rw [get_miss now hm]
    exact hinv
  · by_cases hexp : e.expiresAt < now
    · rw [get_expired hm hexp]
      intro p hp
      exact hinv p (mem_mapDelete hp)
    · rw [get_hit hm (by omega)]
      intro p hp
      rcases mem_mapSet hp with h1 | h1
      · rw [h1]
        exact hinv (key, e) (mem_of_mapGet_eq_some hm)
      · exact hinv p (mem_mapDelete h1)

theorem entryTimesOk_applyOp {T : Type} {c : SearchCache T} {op : CacheOp T}
    (hdef : 0 ≤ c.defaultTtlMs) (hinv : EntryTimesOk c)
    (hop : opTtlOk op = true) : EntryTimesOk (applyOp c op) := by
  cases op with
  | set now key value ttlMs =>
    refine entryTimesOk_set hdef hinv ?_
    intro t ht
    rw [ht] at hop
    simpa [opTtlOk] using hop
  | get now key => exact entryTimesOk_get now key hinv
  | has now key =>
    simpa [applyOp, SearchCache.has] using entryTimesOk_get now key hinv
  | del key =>
    intro p hp
    exact hinv p (mem_mapDelete (by simpa [applyOp, SearchCache.del] using hp))
  | clear =>
    intro p hp
    simp [applyOp, SearchCache.clear] at hp

theorem entryTimesOk_runOps {T : Type} {c : SearchCache T}
    {ops : List (CacheOp T)} (hdef : 0 ≤ c.defaultTtlMs)
    (hinv : EntryTimesOk c) (hops : ∀ op ∈ ops, opTtlOk op = true) :
    EntryTimesOk (runOps c ops) := by
  induction ops generalizing c with
  | nil => exact hinv
  | cons op rest ih =>
    have h1 : EntryTimesOk (applyOp c op) :=
      entryTimesOk_applyOp hdef hinv (hops op (List.mem_cons_self _ _))
    have h2 : 0 ≤ (applyOp c op).defaultTtlMs := by
      rw [defaultTtlMs_applyOp]
      exact hdef
    exact ih h2 h1 (fun o ho => hops o (List.mem_cons_of_mem _ ho))

/-! ### Claim C1 -/

/-- Claim C1 counterexample: with capacity 1, the operation sequence
`set("", 1); set("x", 2)` (distinct keys) leaves 2 entries in the cache,
because the empty-string eviction victim is falsy and the eviction is
skipped, so `size <= capacity` fails immediately after a mutating
operation. -/
theorem C1_counterexample :
    ¬ (((runOps (mkSearchCache Nat (some ⟨some 1, some 1000⟩))
          [.set 0 "" 1 none, .set 0 "x" 2 none]).cache.length : Int) ≤
        (mkSearchCache Nat (some ⟨some 1, some 1000⟩)).maxSize) := by decide

/-- Claim C1 (amended): for every sequence of cache operations in which no
`set` uses the empty-string key, and for a positive configured capacity,
the number of entries after the sequence (hence after each mutating
operation, since the sequence is arbitrary) is at most the capacity. -/
theorem C1_capacity_bound {T : Type} (options : Option CacheOptions)
    (ops : List (CacheOp T))
    (hcap : 1 ≤ (mkSearchCache T options).maxSize)
    (hops : ∀ op ∈ ops, opKeyOk op = true) :
    ((runOps (mkSearchCache T options) ops).cache.length : Int) ≤
      (mkSearchCache T options).maxSize := by
  have hinv : SizeInv (mkSearchCache T options) := by
    constructor
    · have hc : (mkSearchCache T options).cache =
          ([] : List (String × CacheEntry T)) := rfl
      rw [hc]
      simp
      omega
    · intro p hp
      simp [mkSearchCache] at hp
  have h := sizeInv_runOps hcap hinv hops
  rw [← maxSize_runOps (mkSearchCache T options) ops]
  exact h.1

theorem C1_capacity_bound_witness :
    ((runOps (mkSearchCache Nat (some ⟨some 2, some 1000⟩))
        [.set 0 "a" 1 none, .set 5 "b" 2 none, .set 9 "c" 3 none,
          .get 12 "a", .has 13 "b", .del "c"]).cache.length : Int) ≤
      (mkSearchCache Nat (some ⟨some 2, some 1000⟩)).maxSize :=
  C1_capacity_bound (some ⟨some 2, some 1000⟩)
    [.set 0 "a" 1 none, .set 5 "b" 2 none, .set 9 "c" 3 none,
      .get 12 "a", .has 13 "b", .del "c"] (by decide) (by decide)

/-! ### Claim C2 -/

/-- Claim C2 counterexample: with capacity 2 holding `"a"` then `"b"`,
overwriting the already-present key `"b"` evicts `"a"`: the overwrite
runs the eviction check first and the source never removes the existing
key before inserting, so overwriting does count against eviction. -/
theorem C2_counterexample :
    mapGet (((mkSearchCache Nat (some ⟨some 2, some 1000⟩)).set 0 "a" 1
        none).set 0 "b" 2 none).cache "a" ≠ none ∧
      mapGet ((((mkSearchCache Nat (some ⟨some 2, some 1000⟩)).set 0 "a" 1
          none).set 0 "b" 2 none).set 1 "b" 9 none).cache "a" = none := by
  decide

/-- Claim C2 (amended): calling `set` on a key already present while below
capacity overwrites the entry in place, preserving the key's existing
position in the recency order (the key is NOT moved to the
most-recently-used position), and evicts nothing; when the cache is at
capacity, `set` runs its usual eviction first even though the key is
already present, which can evict another entry. -/
theorem C2_overwrite_semantics {T : Type} (c : SearchCache T) (now : Int)
    (key : String) (value : T) (ttlMs : Option Int) (e : CacheEntry T)
    (hpresent : mapGet c.cache key = some e)
    (hbelow : (c.cache.length : Int) < c.maxSize) :
    (c.set now key value ttlMs).cache.map Prod.fst =
        c.cache.map Prod.fst ∧
      mapGet (c.set now key value ttlMs).cache key =
        some ⟨value, now, now + ttlMs.getD c.defaultTtlMs⟩ := by
  have hcache := set_cache_below hbelow now key value ttlMs
  constructor
  · rw [hcache]
    exact keys_mapSet_of_present hpresent _
  · rw [hcache]
    exact mapGet_mapSet_self _ _ _

theorem C2_overwrite_semantics_witness :
    (((mkSearchCache Nat (some ⟨some 3, some 1000⟩)).set 0 "a" 1
          none).set 5 "a" 9 (some 50)).cache.map Prod.fst =
        ((mkSearchCache Nat (some ⟨some 3, some 1000⟩)).set 0 "a" 1
          none).cache.map Prod.fst ∧
      mapGet (((mkSearchCache Nat (some ⟨some 3, some 1000⟩)).set 0 "a" 1
          none).set 5 "a" 9 (some 50)).cache "a" = some ⟨9, 5, 55⟩ := by
  have h := C2_overwrite_semantics
    ((mkSearchCache Nat (some ⟨some 3, some 1000⟩)).set 0 "a" 1 none)
    5 "a" 9 (some 50) ⟨1, 0, 1000⟩ (by decide) (by decide)
  exact h

/-! ### Claim C3 -/

/-- Claim C3 counterexample: `set("k", 5, ttl 0)` with `defaultTtl = 1000`
stores `expiresAt = 0 + 0`, not `0 + 1000`: a zero TTL is used as-is, not
replaced by the default (the source only defaults on an absent TTL via the
nullish-coalescing operator). -/
theorem C3_counterexample :
    mapGet ((mkSearchCache Nat (some ⟨some 10, some 1000⟩)).set 0 "k" 5
        (some 0)).cache "k" = some ⟨5, 0, 0⟩ ∧
      ((0 : Int) ≠ (0 : Int) + 1000) := by decide

/-- Claim C3 (amended): the effective TTL of `set(key, value, ttl)` is the
supplied `ttl` whenever it is provided — including zero and negative
values — and `defaultTtl` only when it is absent. -/
theorem C3_effective_ttl {T : Type} (c : SearchCache T) (now : Int)
    (key : String) (value : T) (ttlMs : Option Int) :
    mapGet (c.set now key value ttlMs).cache key =
      some ⟨value, now,
        now + match ttlMs with
          | some t => t
          | none => c.defaultTtlMs⟩ := by
  have hm : (match ttlMs with
      | some t => t
      | none => c.defaultTtlMs) = ttlMs.getD c.defaultTtlMs := by
    cases ttlMs <;> rfl
  rw [hm]
  simp only [SearchCache.set]
  exact mapGet_mapSet_self _ _ _

/-! ### Claim C4 -/

/-- Claim C4 counterexample: `set("k", 5, ttl -5)` at time 7 stores an
entry with `createdAt = 7` and `expiresAt = 2 < 7`: the code happily
creates an entry whose expiry time is before its creation time. -/
theorem C4_counterexample :
    mapGet ((mkSearchCache Nat (some ⟨some 10, some 1000⟩)).set 7 "k" 5
        (some (-5))).cache "k" = some ⟨5, 7, 2⟩ ∧
      ¬ ((7 : Int) ≤ (2 : Int)) := by decide

/-- Claim C4 (amended): in every cache state reached by operations whose
explicit TTLs are all nonnegative, starting from a constructor with a
nonnegative default TTL, every stored entry satisfies
`createdAt ≤ expiresAt`; only a `set` with a negative explicit TTL can
violate this. -/
theorem C4_entry_times {T : Type} (options : Option CacheOptions)
    (ops : List (CacheOp T))
    (hdef : 0 ≤ (mkSearchCache T options).defaultTtlMs)
    (hops : ∀ op ∈ ops, opTtlOk op = true) :
    ∀ p ∈ (runOps (mkSearchCache T options) ops).cache,
      p.2.timestamp ≤ p.2.expiresAt := by
  refine entryTimesOk_runOps hdef ?_ hops
  intro p hp
  simp [mkSearchCache] at hp

theorem C4_entry_times_witness :
    (("b", (⟨2, 3, 1003⟩ : CacheEntry Nat)) :
        String × CacheEntry Nat).2.timestamp ≤
      (("b", (⟨2, 3, 1003⟩ : CacheEntry Nat)) :
        String × CacheEntry Nat).2.expiresAt :=
  C4_entry_times (some ⟨some 2, some 1000⟩)
    [.set 0 "a" 1 (some 5), .set 3 "b" 2 none, .get 4 "a", .has 5 "b"]
    (by decide) (by decide) ("b", ⟨2, 3, 1003⟩) (by decide)

/-! ### Claim C5 -/

/-- Claim C5: `get` on an absent key returns `none` and leaves the cache
completely unchanged (so repeated misses are idempotent and never change
the size); `get` on an entry whose expiry time is strictly before the
current time returns `none`, deletes exactly that entry, and shrinks the
size by one — an expired value is never returned, regardless of capacity
history. -/
theorem C5_get_miss_and_expiry {T : Type} (c : SearchCache T) (now : Int)
    (key : String) :
    (mapGet c.cache key = none → c.get now key = (none, c)) ∧
      (∀ e, mapGet c.cache key = some e → e.expiresAt < now →
        (c.get now key).1 = none ∧
          (c.get now key).2.cache = mapDelete c.cache key ∧
          ((c.get now key).2.cache.length : Int) + 1 =
            (c.cache.length : Int)) := by
  constructor
  · intro h
    exact get_miss now h
  · intro e he hexp
    rw [get_expired he hexp]
    refine ⟨rfl, rfl, ?_⟩
    have := length_mapDelete_of_mapGet he
    push_cast
    omega

theorem C5_get_miss_and_expiry_witness :
    ((((mkSearchCache Nat (some ⟨some 10, some 1000⟩)).set 0 "k" 5
          (some 1)).get 5 "k").1 = none ∧
      ((((mkSearchCache Nat (some ⟨some 10, some 1000⟩)).set 0 "k" 5
          (some 1)).get 5 "k").2.cache =
        mapDelete ((mkSearchCache Nat (some ⟨some 10, some 1000⟩)).set 0 "k"
          5 (some 1)).cache "k") ∧
      (((((mkSearchCache Nat (some ⟨some 10, some 1000⟩)).set 0 "k" 5
          (some 1)).get 5 "k").2.cache.length : Int) + 1 =
        (((mkSearchCache Nat (some ⟨some 10, some 1000⟩)).set 0 "k" 5
          (some 1)).cache.length : Int))) :=
  (C5_get_miss_and_expiry
    ((mkSearchCache Nat (some ⟨some 10, some 1000⟩)).set 0 "k" 5 (some 1))
    5 "k").2 ⟨5, 0, 1⟩ (by decide) (by decide)

/-! ### Claim C6 -/

/-- Claim C6: with capacity 2 and TTL 1000 ms, `set("a",1); set("b",2)`
then `get("a")` returns 1 and promotes `"a"` to most-recently-used;
`set("c",3)` evicts exactly `"b"` (the least-recently-used key); then
`get("b")` is absent while `get("a")` returns 1 and `get("c")` returns 3,
all within the TTL window. -/
theorem C6_end_to_end :
    (let s2 := ((mkSearchCache Nat (some ⟨some 2, some 1000⟩)).set 0 "a" 1
        none).set 0 "b" 2 none
     let r := s2.get 100 "a"
     let s4 := r.2.set 200 "c" 3 none
     r.1 = some 1 ∧
       r.2.cache.map Prod.fst = ["b", "a"] ∧
       s4.cache.map Prod.fst = ["a", "c"] ∧
       (s4.get 300 "b").1 = none ∧
       (s4.get 300 "a").1 = some 1 ∧
       (s4.get 300 "c").1 = some 3) := by decide

/-! ### Claim C7 -/

/-- Claim C7: `has(key)` returns `true` exactly when `get(key)` on the
same state returns a value, it performs the same state update as `get`,
and on an expired entry it removes that entry (lazy expiry) rather than
merely peeking. -/
theorem C7_has_iff_get {T : Type} (c : SearchCache T) (now : Int)
    (key : String) :
    ((c.has now key).1 = true ↔ (c.get now key).1 ≠ none) ∧
      (c.has now key).2 = (c.get now key).2 ∧
      (∀ e, mapGet c.cache key = some e → e.expiresAt < now →
        (c.has now key).1 = false ∧
          (c.has now key).2.cache = mapDelete c.cache key) := by
  refine ⟨?_, rfl, ?_⟩
  · simp [SearchCache.has, Option.isSome_iff_ne_none]
  · intro e he hexp
    have hg := get_expired he hexp
    constructor
    · simp [SearchCache.has, hg]
    · simp [SearchCache.has, hg]

theorem C7_has_iff_get_witness :
    (((mkSearchCache Nat (some ⟨some 10, some 1000⟩)).set 0 "j" 4
          (some 2)).has 9 "j").1 = false ∧
      ((((mkSearchCache Nat (some ⟨some 10, some 1000⟩)).set 0 "j" 4
          (some 2)).has 9 "j").2.cache =
        mapDelete ((mkSearchCache Nat (some ⟨some 10, some 1000⟩)).set 0 "j"
          4 (some 2)).cache "j") :=
  (C7_has_iff_get
    ((mkSearchCache Nat (some ⟨some 10, some 1000⟩)).set 0 "j" 4 (some 2))
    9 "j").2.2 ⟨4, 0, 2⟩ (by decide) (by decide)

/-! ### Claim C8 -/

/-- Claim C8: `generateKey` lower-cases and trims the primary string, so
two primaries that differ only in ASCII letter case and in
leading/trailing whitespace produce the same key whenever the options are
identical; concretely `generateKey("  Foo Bar  ")` equals
`generateKey("foo bar")` and `generateKey("x", ⦃a:1⦄)` differs from
`generateKey("x", ⦃a:2⦄)`. -/
theorem C8_generateKey_normalization :
    (∀ (wl1 core1 wr1 wl2 core2 wr2 : List Char)
        (options : Option (List (String × Int))),
        (∀ c ∈ wl1, isJsWs c = true) → (∀ c ∈ wr1, isJsWs c = true) →
        (∀ c ∈ wl2, isJsWs c = true) → (∀ c ∈ wr2, isJsWs c = true) →
        core1.dropWhile isJsWs = core1 →
        core1.reverse.dropWhile isJsWs = core1.reverse →
        core2.dropWhile isJsWs = core2 →
        core2.reverse.dropWhile isJsWs = core2.reverse →
        List.Forall₂ sameLetterModCase core1 core2 →
        generateKey (String.mk (wl1 ++ core1 ++ wr1)) options =
          generateKey (String.mk (wl2 ++ core2 ++ wr2)) options) ∧
      generateKey "  Foo Bar  " none = generateKey "foo bar" none ∧
      generateKey "x" (some [("a", 1)]) ≠
        generateKey "x" (some [("a", 2)]) := by
  refine ⟨?_, by decide, by decide⟩
  intro wl1 core1 wr1 wl2 core2 wr2 options hwl1 hwr1 hwl2 hwr2 hc1L hc1R
    hc2L hc2R hsame
  have key : ∀ (wl core wr : List Char),
      (∀ c ∈ wl, isJsWs c = true) → (∀ c ∈ wr, isJsWs c = true) →
      core.dropWhile isJsWs = core →
      core.reverse.dropWhile isJsWs = core.reverse →
      jsTrim (jsToLower (String.mk (wl ++ core ++ wr))) =
        String.mk (core.map jsToLowerChar) := by
    intro wl core wr hwl hwr hL hR
    have hlow : jsToLower (String.mk (wl ++ core ++ wr)) =
        String.mk ((wl.map jsToLowerChar) ++ (core.map jsToLowerChar) ++
          (wr.map jsToLowerChar)) := by
      simp [jsToLower]
    rw [hlow]
    apply jsTrim_sandwich
    · intro c hc
      obtain ⟨c0, hc0, rfl⟩ := List.mem_map.mp hc
      rw [isJsWs_jsToLowerChar]
      exact hwl c0 hc0
    · intro c hc
      obtain ⟨c0, hc0, rfl⟩ := List.mem_map.mp hc
      rw [isJsWs_jsToLowerChar]
      exact hwr c0 hc0
    · exact dropWhile_map_self isJsWs_jsToLowerChar hL
    · rw [← List.map_reverse]
      exact dropWhile_map_self isJsWs_jsToLowerChar hR
  have h1 := key wl1 core1 wr1 hwl1 hwr1 hc1L hc1R
  have h2 := key wl2 core2 wr2 hwl2 hwr2 hc2L hc2R
  simp only [generateKey]
  rw [h1, h2, map_jsToLowerChar_eq hsame]

theorem C8_generateKey_normalization_witness :
    generateKey (String.mk ([' '] ++ ['F', 'o', 'o'] ++ [' ', ' '])) none =
      generateKey (String.mk ([] ++ ['f', 'O', 'o'] ++ [' '])) none :=
  (C8_generateKey_normalization).1 [' '] ['F', 'o', 'o'] [' ', ' ']
    [] ['f', 'O', 'o'] [' '] none (by decide) (by decide) (by decide)
    (by decide) (by decide) (by decide) (by decide) (by decide)
    (List.Forall₂.cons (by decide)
      (List.Forall₂.cons (by decide)
        (List.Forall₂.cons (by decide) List.Forall₂.nil)))

/-! ### Claim C9 -/

/-- Claim C9 counterexample: constructing a cache with capacity 0 and a
negative default TTL does not fail — it produces a fully usable instance
(`set` then `get` round-trips a value), so there is no fail-fast
invalid-configuration error in the code. -/
theorem C9_counterexample :
    (mkSearchCache Nat (some ⟨some 0, some (-100)⟩)).maxSize = 0 ∧
      (mkSearchCache Nat (some ⟨some 0, some (-100)⟩)).defaultTtlMs =
        -100 ∧
      (((mkSearchCache Nat (some ⟨some 0, some (-100)⟩)).set 0 "k" 5
          (some 10)).get 0 "k").1 = some 5 := by decide

/-- Claim C9 (amended): the constructor performs no validation at all:
any capacity (including 0 or negative) and any TTL (including negative)
are accepted verbatim, and the resulting cache is usable — a `set`
followed by a `get` with a nonnegative TTL returns the stored value. -/
theorem C9_no_validation {T : Type} (m t now : Int) (key : String) (v : T)
    (ttl : Int) (h : 0 ≤ ttl) :
    (mkSearchCache T (some ⟨some m, some t⟩)).maxSize = m ∧
      (mkSearchCache T (some ⟨some m, some t⟩)).defaultTtlMs = t ∧
      (((mkSearchCache T (some ⟨some m, some t⟩)).set now key v
          (some ttl)).get now key).1 = some v := by
  refine ⟨rfl, rfl, ?_⟩
  have hset : ((mkSearchCache T (some ⟨some m, some t⟩)).set now key v
      (some ttl)).cache = [(key, ⟨v, now, now + ttl⟩)] := by
    simp [SearchCache.set, mkSearchCache, mapSet]
  have hm : mapGet ((mkSearchCache T (some ⟨some m, some t⟩)).set now key v
      (some ttl)).cache key = some ⟨v, now, now + ttl⟩ := by
    rw [hset]
    simp [mapGet]
  have hlive : now ≤ (⟨v, now, now + ttl⟩ : CacheEntry T).expiresAt := by
    show now ≤ now + ttl
    omega
  rw [get_hit hm hlive]

theorem C9_no_validation_witness :
    (mkSearchCache Nat (some ⟨some 0, some (-100)⟩)).maxSize = 0 ∧
      (mkSearchCache Nat (some ⟨some 0, some (-100)⟩)).defaultTtlMs =
        -100 ∧
      (((mkSearchCache Nat (some ⟨some 0, some (-100)⟩)).set 2 "q" 5
          (some 10)).get 2 "q").1 = some 5 :=
  C9_no_validation 0 (-100) 2 "q" 5 10 (by decide)

/-! ### Claim C10 -/

/-- Claim C10: when the cache is at capacity and the least-recently-used
(first) entry is keyed by the empty string, `set` with a fresh key skips
the eviction (the empty string is falsy) and appends the new entry anyway:
no old entry is removed and the size becomes capacity + 1. -/
theorem C10_empty_key_skips_eviction {T : Type} (c : SearchCache T)
    (e0 : CacheEntry T) (rest : List (String × CacheEntry T)) (now : Int)
    (key : String) (value : T) (ttlMs : Option Int)
    (hhead : c.cache = ("", e0) :: rest)
    (hfull : (c.cache.length : Int) ≥ c.maxSize)
    (hfresh : mapGet c.cache key = none) :
    (c.set now key value ttlMs).cache =
        c.cache ++ [(key, ⟨value, now, now + ttlMs.getD c.defaultTtlMs⟩)] ∧
      ((c.set now key value ttlMs).cache.length : Int) =
        (c.cache.length : Int) + 1 ∧
      ((c.cache.length : Int) = c.maxSize →
        ((c.set now key value ttlMs).cache.length : Int) =
          c.maxSize + 1) := by
  have hcache := set_cache_full_empty_key hhead hfull now key value ttlMs
  have happ : (c.set now key value ttlMs).cache =
      c.cache ++ [(key, ⟨value, now, now + ttlMs.getD c.defaultTtlMs⟩)] := by
    rw [hcache, mapSet_of_absent hfresh]
  refine ⟨happ, ?_, ?_⟩
  · rw [happ]
    simp
  · intro heq
    rw [happ]
    simp
    omega

theorem C10_empty_key_skips_eviction_witness :
    (((mkSearchCache Nat (some ⟨some 1, some 1000⟩)).set 0 "" 7 none).set 3
        "x" 2 (some 500)).cache =
      ((mkSearchCache Nat (some ⟨some 1, some 1000⟩)).set 0 "" 7
          none).cache ++ [("x", ⟨2, 3, 503⟩)] := by
  have h := C10_empty_key_skips_eviction
    ((mkSearchCache Nat (some ⟨some 1, some 1000⟩)).set 0 "" 7 none)
    ⟨7, 0, 1000⟩ [] 3 "x" 2 (some 500) (by decide) (by decide) (by decide)
  exact h.1
